import Mathlib

/-!
Verification of the block builder (table/block_builder.cc) and the memory
arena (util/arena.cc) of this LevelDB fork, over a shallow embedding.
Byte sequences are modelled as lists of naturals; machine-integer widths
(uint32_t) are made explicit with `% 4294967296` where the source narrows.
-/

namespace LevelDB

/-- Modelled from the spec: base-128 varint encoding, least-significant
group first with the continuation bit set on all but the last byte
(util/coding.cc PutVarint32 is not under src/; spec section 6).  The
fuel bounds the loop; a varint32 is at most 5 bytes, so fuel 5 realises
the source loop exactly on the uint32 domain. -/
def putVarintAux : Nat → Nat → List Nat
  | 0, v => [v % 128]
  | fuel + 1, v =>
    if v < 128 then [v] else (v % 128 + 128) :: putVarintAux fuel (v / 128)

/-- The varint encoder at the fuel sufficient for any 32-bit value. -/
def putVarintCore (v : Nat) : List Nat :=
  putVarintAux 5 v

/-- Modelled from the spec: PutVarint32 takes a uint32_t, so the
argument is truncated to 32 bits. -/
def putVarint32 (v : Nat) : List Nat :=
  putVarintCore (v % 4294967296)

/-- Modelled from the spec: little-endian fixed 4-byte encoding of a
uint32_t value (util/coding.cc PutFixed32 is not under src/). -/
def putFixed32 (v : Nat) : List Nat :=
  [v % 256, v / 256 % 256, v / 65536 % 256, v / 16777216 % 256]

/-- Modelled from the spec: varint decoding, the §6 reader side. -/
def parseVarint : List Nat → Option (Nat × List Nat)
  | [] => none
  | b :: rest =>
    if b < 128 then some (b, rest)
    else
      match parseVarint rest with
      | some (v, r) => some (b % 128 + 128 * v, r)
      | none => none

/-- Modelled from the spec: little-endian fixed 32-bit decode. -/
def getFixed32 : List Nat → Nat
  | a :: b :: c :: d :: _ => a + 256 * b + 65536 * c + 16777216 * d
  | _ => 0

theorem putVarintAux_ne_nil : ∀ (fuel v : Nat), putVarintAux fuel v ≠ []
  | 0, v => by simp [putVarintAux]
  | fuel + 1, v => by
    simp only [putVarintAux]
    split <;> simp

theorem putVarintCore_ne_nil (v : Nat) : putVarintCore v ≠ [] :=
  putVarintAux_ne_nil 5 v

theorem parseVarint_putVarintAux : ∀ (fuel v : Nat) (rest : List Nat),
    v < 128 ^ fuel → parseVarint (putVarintAux fuel v ++ rest) =
      some (v, rest) := by
  intro fuel
  induction fuel with
  | zero =>
    intro v rest h
    have hv : v = 0 := by simpa using h
    subst hv
    simp [putVarintAux, parseVarint]
  | succ fuel ih =>
    intro v rest h
    by_cases hlt : v < 128
    · simp [putVarintAux, hlt, parseVarint]
    · simp only [putVarintAux, hlt, if_false, List.cons_append, parseVarint]
      have hge : ¬ (v % 128 + 128 < 128) := by omega
      simp only [hge, if_false]
      have hdiv : v / 128 < 128 ^ fuel := by
        apply Nat.div_lt_of_lt_mul
        rw [pow_succ] at h
        omega
      rw [ih (v / 128) rest hdiv]
      have hval : v % 128 + 128 * (v / 128) = v := by omega
      simp [hval]

theorem parseVarint_putVarintCore (v : Nat) (rest : List Nat)
    (h : v < 34359738368) :
    parseVarint (putVarintCore v ++ rest) = some (v, rest) := by
  apply parseVarint_putVarintAux 5 v rest
  have hp : (128 : Nat) ^ 5 = 34359738368 := by norm_num
  omega

theorem parseVarint_putVarint32 (v : Nat) (rest : List Nat)
    (h : v < 4294967296) :
    parseVarint (putVarint32 v ++ rest) = some (v, rest) := by
  unfold putVarint32
  rw [Nat.mod_eq_of_lt h]
  exact parseVarint_putVarintCore v rest (by omega)

theorem getFixed32_putFixed32 (v : Nat) (h : v < 4294967296) :
    getFixed32 (putFixed32 v) = v := by
  simp only [putFixed32, getFixed32]
  omega

theorem putFixed32_length (v : Nat) : (putFixed32 v).length = 4 := rfl

/-! ## BlockBuilder (table/block_builder.cc) -/

/-- State of BlockBuilder: options_->block_restart_interval, buffer_,
restarts_ (vector of uint32_t), counter_, finished_, last_key_. -/
structure BlockBuilder where
  restart_interval : Nat
  buffer : List Nat
  restarts : List Nat
  counter : Nat
  finished : Bool
  last_key : List Nat
deriving DecidableEq

/-- BlockBuilder::BlockBuilder: empty buffer, restarts_ = [0], counter_ = 0,
finished_ = false (constructor asserts block_restart_interval >= 1). -/
def blockBuilderInit (interval : Nat) : BlockBuilder :=
  ⟨interval, [], [0], 0, false, []⟩

/-- BlockBuilder::Reset. -/
def reset (b : BlockBuilder) : BlockBuilder :=
  { b with buffer := [], restarts := [0], counter := 0,
           finished := false, last_key := [] }

/-- The while loop of BlockBuilder::Add computing the number of leading
bytes shared between last_key_ and key. -/
def sharedLen : List Nat → List Nat → Nat
  | a :: as, b :: bs => if a = b then sharedLen as bs + 1 else 0
  | _, _ => 0

/-- The shared-prefix length used by BlockBuilder::Add for this entry:
the common prefix with last_key_ inside a restart group, 0 at a restart. -/
def entryShared (b : BlockBuilder) (key : List Nat) : Nat :=
  if b.counter < b.restart_interval then sharedLen b.last_key key else 0

/-- The bytes BlockBuilder::Add appends to buffer_ for one entry:
varint32 shared, varint32 non_shared, varint32 value length, key delta,
value. -/
def entryEncoding (b : BlockBuilder) (key value : List Nat) : List Nat :=
  putVarint32 (entryShared b key) ++
  putVarint32 (key.length - entryShared b key) ++
  putVarint32 value.length ++
  key.drop (entryShared b key) ++ value

/-- BlockBuilder::Add, after its assertions pass: pushes a new restart
offset (buffer_.size() as uint32_t) and resets counter_ when the restart
group is full, appends the encoded entry, rebuilds last_key_ from the
shared prefix plus the delta, increments counter_. -/
def add (b : BlockBuilder) (key value : List Nat) : BlockBuilder :=
  { b with
    buffer := b.buffer ++ entryEncoding b key value,
    restarts := if b.counter < b.restart_interval then b.restarts
                else b.restarts ++ [b.buffer.length % 4294967296],
    counter := (if b.counter < b.restart_interval then b.counter else 0) + 1,
    last_key := b.last_key.take (entryShared b key) ++
                key.drop (entryShared b key) }

/-- BlockBuilder::Add including its assertions: !finished_,
counter_ <= interval, and key strictly greater than last_key_ under the
configured comparator whenever the buffer is non-empty.  A failed
assertion is modelled as none. -/
def addChecked (cmp : List Nat → List Nat → Int) (b : BlockBuilder)
    (key value : List Nat) : Option BlockBuilder :=
  if b.finished = false ∧ b.counter ≤ b.restart_interval ∧
     (b.buffer = [] ∨ 0 < cmp key b.last_key) then
    some (add b key value)
  else none

/-- Repeated BlockBuilder::Add over a list of key-value pairs. -/
def addAll (b : BlockBuilder) (kvs : List (List Nat × List Nat)) : BlockBuilder :=
  kvs.foldl (fun s kv => add s kv.1 kv.2) b

/-- The trailer BlockBuilder::Finish appends: each restart offset as
fixed32, then the number of restarts as fixed32. -/
def finishTrailer (b : BlockBuilder) : List Nat :=
  (b.restarts.map putFixed32).flatten ++ putFixed32 b.restarts.length

/-- BlockBuilder::Finish: appends the restart trailer and sets finished_.
The Slice it returns views the whole buffer_. -/
def finish (b : BlockBuilder) : BlockBuilder :=
  { b with buffer := b.buffer ++ finishTrailer b, finished := true }

/-- BlockBuilder::CurrentSizeEstimate:
buffer_.size() + restarts_.size() * 4 + 4. -/
def currentSizeEstimate (b : BlockBuilder) : Nat :=
  b.buffer.length + b.restarts.length * 4 + 4

/-- The default bytewise (memcmp-style) three-way comparator. -/
def bytewiseCompare : List Nat → List Nat → Int
  | [], [] => 0
  | [], _ :: _ => -1
  | _ :: _, [] => 1
  | a :: as, b :: bs =>
    if a < b then -1 else if b < a then 1 else bytewiseCompare as bs

/-! ## Independent block decoder, modelled from the spec (section 6) -/

/-- Modelled from the spec: a reader decodes one entry as varint32
shared_bytes, varint32 unshared_bytes, varint32 value_length, then the
unshared key bytes and the value bytes; the key is the shared prefix of
the previous key followed by the delta. -/
def parseEntry (prev input : List Nat) :
    Option ((List Nat × List Nat) × List Nat) :=
  match parseVarint input with
  | none => none
  | some (shared, r1) =>
    match parseVarint r1 with
    | none => none
    | some (unshared, r2) =>
      match parseVarint r2 with
      | none => none
      | some (vlen, r3) =>
        if unshared + vlen ≤ r3.length then
          some ((prev.take shared ++ r3.take unshared,
                 (r3.drop unshared).take vlen),
                (r3.drop unshared).drop vlen)
        else none

/-- Modelled from the spec: decode entries until the entry region is
exhausted; the fuel is decremented once per entry, so any fuel at least
the number of entries suffices. -/
def parseEntriesAux : Nat → List Nat → List Nat →
    Option (List (List Nat × List Nat))
  | _, [], _ => some []
  | 0, _ :: _, _ => none
  | fuel + 1, x :: xs, prev =>
    match parseEntry prev (x :: xs) with
    | none => none
    | some ((k, v), rest) =>
      match parseEntriesAux fuel rest k with
      | none => none
      | some es => some ((k, v) :: es)

/-- Modelled from the spec: decode a finished block per section 6: the
last fixed32 is num_restarts, the 4 * num_restarts bytes before it are
the restart offsets, and the bytes before those are the entry region,
decoded front to back. -/
def decodeBlock (bytes : List Nat) : Option (List (List Nat × List Nat)) :=
  if bytes.length < 4 then none
  else
    let n := getFixed32 (bytes.drop (bytes.length - 4))
    if bytes.length < 4 * n + 4 then none
    else
      let dataLen := bytes.length - (4 * n + 4)
      parseEntriesAux dataLen (bytes.take dataLen) []

/-- The bytes a run of Add calls appends to the buffer of builder b. -/
def encodeFrom (b : BlockBuilder) : List (List Nat × List Nat) → List Nat
  | [] => []
  | (k, v) :: rest => entryEncoding b k v ++ encodeFrom (add b k v) rest

/-! ## sharedLen and last_key lemmas -/

theorem sharedLen_le_left : ∀ a b : List Nat, sharedLen a b ≤ a.length
  | [], _ => by simp [sharedLen]
  | _ :: _, [] => by simp [sharedLen]
  | x :: xs, y :: ys => by
    simp only [sharedLen, List.length_cons]
    split
    · exact Nat.succ_le_succ (sharedLen_le_left xs ys)
    · omega

theorem sharedLen_le_right : ∀ a b : List Nat, sharedLen a b ≤ b.length
  | [], _ => by simp [sharedLen]
  | _ :: _, [] => by simp [sharedLen]
  | x :: xs, y :: ys => by
    simp only [sharedLen, List.length_cons]
    split
    · exact Nat.succ_le_succ (sharedLen_le_right xs ys)
    · omega

theorem sharedLen_take_eq : ∀ a b : List Nat,
    a.take (sharedLen a b) = b.take (sharedLen a b)
  | [], _ => by simp [sharedLen]
  | _ :: _, [] => by simp [sharedLen]
  | x :: xs, y :: ys => by
    simp only [sharedLen]
    split
    · next h => simp [List.take_succ_cons, h, sharedLen_take_eq xs ys]
    · simp

theorem sharedLen_maximal : ∀ (a b : List Nat) (n : Nat),
    n ≤ a.length → n ≤ b.length → a.take n = b.take n →
    n ≤ sharedLen a b := by
  intro a
  induction a with
  | nil =>
    intro b n h1 _ _
    simp only [List.length_nil, Nat.le_zero] at h1
    omega
  | cons x xs ih =>
    intro b n h1 h2 h3
    cases b with
    | nil =>
      simp only [List.length_nil, Nat.le_zero] at h2
      omega
    | cons y ys =>
      cases n with
      | zero => omega
      | succ m =>
        simp only [List.take_succ_cons, List.cons.injEq] at h3
        simp only [sharedLen, h3.1, if_true]
        have := ih ys m (by simpa using h1) (by simpa using h2) h3.2
        omega

theorem entryShared_le (b : BlockBuilder) (key : List Nat) :
    entryShared b key ≤ key.length := by
  unfold entryShared
  split
  · exact sharedLen_le_right _ _
  · omega

/-- Post-condition of Add asserted in the source: last_key_ == key. -/
theorem add_last_key (b : BlockBuilder) (key value : List Nat) :
    (add b key value).last_key = key := by
  show b.last_key.take (entryShared b key) ++ key.drop (entryShared b key) = key
  unfold entryShared
  split
  · rw [sharedLen_take_eq]
    exact List.take_append_drop _ _
  · simp

/-! ## Round-trip: one entry, then a whole run of entries -/

theorem entryEncoding_ne_nil (b : BlockBuilder) (key value : List Nat) :
    entryEncoding b key value ≠ [] := by
  unfold entryEncoding putVarint32
  intro h
  rcases List.append_eq_nil.mp h with ⟨h1, -⟩
  rcases List.append_eq_nil.mp h1 with ⟨h2, -⟩
  rcases List.append_eq_nil.mp h2 with ⟨h3, -⟩
  rcases List.append_eq_nil.mp h3 with ⟨h4, -⟩
  exact putVarintCore_ne_nil _ h4

theorem parseEntry_entryEncoding (b : BlockBuilder) (key value rest : List Nat)
    (hk : key.length < 4294967296) (hv : value.length < 4294967296) :
    parseEntry b.last_key (entryEncoding b key value ++ rest) =
      some ((key, value), rest) := by
  have hs : entryShared b key ≤ key.length := entryShared_le b key
  have q1 : ∀ tail, parseVarint (putVarint32 (entryShared b key) ++ tail) =
      some (entryShared b key, tail) :=
    fun tail => parseVarint_putVarint32 _ tail (by omega)
  have q2 : ∀ tail, parseVarint
      (putVarint32 (key.length - entryShared b key) ++ tail) =
      some (key.length - entryShared b key, tail) :=
    fun tail => parseVarint_putVarint32 _ tail (by omega)
  have q3 : ∀ tail, parseVarint (putVarint32 value.length ++ tail) =
      some (value.length, tail) :=
    fun tail => parseVarint_putVarint32 _ tail (by omega)
  unfold entryEncoding
  simp only [List.append_assoc, parseEntry, q1, q2, q3]
  have hlen : (key.drop (entryShared b key)).length =
      key.length - entryShared b key := List.length_drop _ _
  have hcond : key.length - entryShared b key + value.length ≤
      (key.drop (entryShared b key) ++ (value ++ rest)).length := by
    simp only [List.length_append, hlen]
    omega
  simp only [hcond, if_true]
  rw [List.take_left' hlen, List.drop_left' hlen,
      List.take_left' rfl, List.drop_left' rfl]
  have hkey : b.last_key.take (entryShared b key) ++
      key.drop (entryShared b key) = key := add_last_key b key value
  rw [hkey]

theorem parseEntriesAux_nil (fuel : Nat) (prev : List Nat) :
    parseEntriesAux fuel [] prev = some [] := by
  cases fuel <;> rfl

theorem parseEntriesAux_cons_of_ne_nil (fuel : Nat) (input prev : List Nat)
    (h : input ≠ []) :
    parseEntriesAux (fuel + 1) input prev =
      match parseEntry prev input with
      | none => none
      | some ((k, v), rest) =>
        match parseEntriesAux fuel rest k with
        | none => none
        | some es => some ((k, v) :: es) := by
  cases input with
  | nil => exact absurd rfl h
  | cons x xs => rfl

theorem parse_encodeFrom : ∀ (kvs : List (List Nat × List Nat))
    (b : BlockBuilder) (fuel : Nat),
    kvs.length ≤ fuel →
    (∀ kv ∈ kvs, kv.1.length < 4294967296 ∧ kv.2.length < 4294967296) →
    parseEntriesAux fuel (encodeFrom b kvs) b.last_key = some kvs := by
  intro kvs
  induction kvs with
  | nil =>
    intro b fuel _ _
    exact parseEntriesAux_nil fuel b.last_key
  | cons kv rest ih =>
    intro b fuel hfuel hbound
    obtain ⟨k, v⟩ := kv
    cases fuel with
    | zero => simp at hfuel
    | succ fuel =>
      have hb := hbound (k, v) (List.mem_cons_self _ _)
      show parseEntriesAux (fuel + 1)
        (entryEncoding b k v ++ encodeFrom (add b k v) rest) b.last_key =
        some ((k, v) :: rest)
      rw [parseEntriesAux_cons_of_ne_nil fuel _ _
        (by
          intro hcontra
          exact entryEncoding_ne_nil b k v (List.append_eq_nil.mp hcontra).1)]
      rw [parseEntry_entryEncoding b k v _ hb.1 hb.2]
      have h0 := ih (add b k v) fuel (by simpa using hfuel)
        (fun kv hmem => hbound kv (List.mem_cons_of_mem _ hmem))
      rw [add_last_key b k v] at h0
      simp [h0]

theorem addAll_cons (b : BlockBuilder) (k v : List Nat)
    (rest : List (List Nat × List Nat)) :
    addAll b ((k, v) :: rest) = addAll (add b k v) rest := rfl

theorem addAll_buffer : ∀ (kvs : List (List Nat × List Nat))
    (b : BlockBuilder),
    (addAll b kvs).buffer = b.buffer ++ encodeFrom b kvs
  | [], b => by simp [addAll, encodeFrom]
  | (k, v) :: rest, b => by
    rw [addAll_cons, addAll_buffer rest (add b k v)]
    show (add b k v).buffer ++ encodeFrom (add b k v) rest = _
    show b.buffer ++ entryEncoding b k v ++ encodeFrom (add b k v) rest = _
    rw [encodeFrom, List.append_assoc]

theorem encodeFrom_length_ge : ∀ (kvs : List (List Nat × List Nat))
    (b : BlockBuilder), kvs.length ≤ (encodeFrom b kvs).length
  | [], _ => by simp [encodeFrom]
  | (k, v) :: rest, b => by
    have h1 := encodeFrom_length_ge rest (add b k v)
    have h2 : 1 ≤ (entryEncoding b k v).length :=
      List.length_pos.mpr (entryEncoding_ne_nil b k v)
    simp only [encodeFrom, List.length_append, List.length_cons]
    omega

theorem addAll_restarts_length_le : ∀ (kvs : List (List Nat × List Nat))
    (b : BlockBuilder),
    (addAll b kvs).restarts.length ≤ b.restarts.length + kvs.length
  | [], b => by simp [addAll]
  | (k, v) :: rest, b => by
    rw [addAll_cons]
    have h1 := addAll_restarts_length_le rest (add b k v)
    have h2 : (add b k v).restarts.length ≤ b.restarts.length + 1 := by
      show (if b.counter < b.restart_interval then b.restarts
            else b.restarts ++ [b.buffer.length % 4294967296]).length ≤ _
      split <;> simp
    simp only [List.length_cons]
    omega

theorem flatten_map_putFixed32_length : ∀ l : List Nat,
    ((l.map putFixed32).flatten).length = 4 * l.length
  | [] => rfl
  | x :: xs => by
    simp only [List.map_cons, List.flatten_cons, List.length_append,
      putFixed32_length, flatten_map_putFixed32_length xs, List.length_cons]
    omega

/-- C1: encode then decode reproduces the key-value sequence.  The
length side conditions are the 32-bit bounds inherent in the varint32 /
uint32 fields of the section 6 format. -/
theorem c1_roundtrip (interval : Nat) (kvs : List (List Nat × List Nat))
    (hK : 1 ≤ interval)
    (hsorted : List.Chain' (fun p q => 0 < bytewiseCompare q.1 p.1) kvs)
    (hbound : ∀ kv ∈ kvs, kv.1.length < 4294967296 ∧
      kv.2.length < 4294967296)
    (hcount : kvs.length + 1 < 4294967296) :
    decodeBlock (finish (addAll (blockBuilderInit interval) kvs)).buffer =
      some kvs := by
  set b := addAll (blockBuilderInit interval) kvs with hb
  have hCle : b.restarts.length ≤ 1 + kvs.length := by
    have := addAll_restarts_length_le kvs (blockBuilderInit interval)
    simpa [blockBuilderInit] using this
  have hC : b.restarts.length < 4294967296 := by omega
  have hdata : b.buffer = encodeFrom (blockBuilderInit interval) kvs := by
    have := addAll_buffer kvs (blockBuilderInit interval)
    simpa [blockBuilderInit] using this
  have hjlen : ((b.restarts.map putFixed32).flatten).length =
      4 * b.restarts.length := flatten_map_putFixed32_length _
  have hbuf : (finish b).buffer =
      (b.buffer ++ (b.restarts.map putFixed32).flatten) ++
        putFixed32 b.restarts.length := by
    show b.buffer ++ finishTrailer b = _
    rw [finishTrailer, ← List.append_assoc]
  rw [hbuf]
  have hlen1 : ((b.buffer ++ (b.restarts.map putFixed32).flatten) ++
      putFixed32 b.restarts.length).length =
      b.buffer.length + 4 * b.restarts.length + 4 := by
    simp only [List.length_append, hjlen, putFixed32_length]
  rw [decodeBlock]
  have hnotlt : ¬ (((b.buffer ++ (b.restarts.map putFixed32).flatten) ++
      putFixed32 b.restarts.length).length < 4) := by omega
  rw [if_neg hnotlt]
  have hdrop : ((b.buffer ++ (b.restarts.map putFixed32).flatten) ++
      putFixed32 b.restarts.length).length - 4 =
      (b.buffer ++ (b.restarts.map putFixed32).flatten).length := by
    rw [hlen1]
    simp only [List.length_append, hjlen]
    omega
  rw [hdrop, List.drop_left, getFixed32_putFixed32 _ hC]
  have hnotlt2 : ¬ (((b.buffer ++ (b.restarts.map putFixed32).flatten) ++
      putFixed32 b.restarts.length).length < 4 * b.restarts.length + 4) := by
    omega
  rw [if_neg hnotlt2]
  have hdatalen : ((b.buffer ++ (b.restarts.map putFixed32).flatten) ++
      putFixed32 b.restarts.length).length - (4 * b.restarts.length + 4) =
      b.buffer.length := by omega
  rw [hdatalen]
  have htake : ((b.buffer ++ (b.restarts.map putFixed32).flatten) ++
      putFixed32 b.restarts.length).take b.buffer.length = b.buffer := by
    rw [List.append_assoc]
    exact List.take_left' rfl
  show parseEntriesAux b.buffer.length
    (((b.buffer ++ (b.restarts.map putFixed32).flatten) ++
      putFixed32 b.restarts.length).take b.buffer.length) [] = some kvs
  rw [htake, hdata]
  have hfuel : kvs.length ≤
      (encodeFrom (blockBuilderInit interval) kvs).length :=
    encodeFrom_length_ge kvs (blockBuilderInit interval)
  have := parse_encodeFrom kvs (blockBuilderInit interval) _ hfuel hbound
  simpa [blockBuilderInit] using this

/-- Witness for C1 at the spec's section 8 example: keys car, cart, dog
with values v1, v2, v3 and restart interval 2. -/
theorem c1_roundtrip_witness :
    decodeBlock (finish (addAll (blockBuilderInit 2)
      [([99, 97, 114], [118, 49]), ([99, 97, 114, 116], [118, 50]),
       ([100, 111, 103], [118, 51])])).buffer =
    some [([99, 97, 114], [118, 49]), ([99, 97, 114, 116], [118, 50]),
          ([100, 111, 103], [118, 51])] :=
  c1_roundtrip 2 _ (by decide)
    (by simp [List.chain'_cons, bytewiseCompare]) (by decide) (by decide)

/-! ## Restart bookkeeping (claim C2) -/

theorem addAll_append_singleton (b : BlockBuilder)
    (kvs : List (List Nat × List Nat)) (kv : List Nat × List Nat) :
    addAll b (kvs ++ [kv]) = add (addAll b kvs) kv.1 kv.2 := by
  unfold addAll
  rw [List.foldl_append]
  rfl

theorem add_buffer_length_lt (b : BlockBuilder) (k v : List Nat) :
    b.buffer.length < (add b k v).buffer.length := by
  show b.buffer.length < (b.buffer ++ entryEncoding b k v).length
  have : 1 ≤ (entryEncoding b k v).length :=
    List.length_pos.mpr (entryEncoding_ne_nil b k v)
  simp only [List.length_append]
  omega

theorem add_interval (b : BlockBuilder) (k v : List Nat) :
    (add b k v).restart_interval = b.restart_interval := rfl

theorem addAll_interval : ∀ (kvs : List (List Nat × List Nat))
    (b : BlockBuilder),
    (addAll b kvs).restart_interval = b.restart_interval
  | [], _ => rfl
  | (k, v) :: rest, b => by
    rw [addAll_cons, addAll_interval rest (add b k v), add_interval]

theorem add_restarts (b : BlockBuilder) (k v : List Nat) :
    (add b k v).restarts =
      if b.counter < b.restart_interval then b.restarts
      else b.restarts ++ [b.buffer.length % 4294967296] := rfl

theorem add_counter (b : BlockBuilder) (k v : List Nat) :
    (add b k v).counter =
      (if b.counter < b.restart_interval then b.counter else 0) + 1 := rfl

/-- Invariant of the restart bookkeeping along a run of Add calls from a
fresh builder: counter / restart-count arithmetic, first offset 0,
strictly increasing offsets bounded by the buffer length. -/
theorem restarts_inv (K : Nat) (hK : 1 ≤ K)
    (kvs : List (List Nat × List Nat))
    (hlen : (addAll (blockBuilderInit K) kvs).buffer.length < 4294967296) :
    (kvs.length = 0 →
      (addAll (blockBuilderInit K) kvs).restarts.length = 1 ∧
      (addAll (blockBuilderInit K) kvs).counter = 0) ∧
    (1 ≤ kvs.length →
      K * ((addAll (blockBuilderInit K) kvs).restarts.length - 1) +
        (addAll (blockBuilderInit K) kvs).counter = kvs.length ∧
      1 ≤ (addAll (blockBuilderInit K) kvs).counter ∧
      (addAll (blockBuilderInit K) kvs).counter ≤ K) ∧
    (addAll (blockBuilderInit K) kvs).restarts.head? = some 0 ∧
    List.Chain' (· < ·) (addAll (blockBuilderInit K) kvs).restarts ∧
    (∀ r ∈ (addAll (blockBuilderInit K) kvs).restarts,
      r ≤ (addAll (blockBuilderInit K) kvs).buffer.length) ∧
    (1 ≤ (addAll (blockBuilderInit K) kvs).counter →
      ∀ r ∈ (addAll (blockBuilderInit K) kvs).restarts,
        r < (addAll (blockBuilderInit K) kvs).buffer.length) := by
  induction kvs using List.reverseRecOn with
  | nil =>
    refine ⟨fun _ => ⟨rfl, rfl⟩, fun h => by simp at h, rfl, ?_, ?_, ?_⟩
    · show List.Chain' (· < ·) [0]
      simp
    · intro r hr
      have hr0 : r ∈ [0] := hr
      show r ≤ 0
      simp only [List.mem_cons, List.not_mem_nil, or_false] at hr0
      omega
    · intro h
      have h0 : (addAll (blockBuilderInit K)
        ([] : List (List Nat × List Nat))).counter = 0 := rfl
      omega
  | append_singleton l x ih =>
    rw [addAll_append_singleton] at hlen ⊢
    set b0 := addAll (blockBuilderInit K) l with hb0
    have hint : b0.restart_interval = K := by
      rw [hb0, addAll_interval]
      rfl
    have hgrow : b0.buffer.length < (add b0 x.1 x.2).buffer.length :=
      add_buffer_length_lt b0 x.1 x.2
    have hlen0 : b0.buffer.length < 4294967296 := by omega
    have IH := ih (by omega)
    obtain ⟨ih0, ih1, ihhead, ihchain, ihle, ihlt⟩ := IH
    have hne : b0.restarts ≠ [] := by
      intro hcontra
      rw [hcontra] at ihhead
      simp at ihhead
    have hL1 : 1 ≤ b0.restarts.length := List.length_pos.mpr hne
    by_cases hc : b0.counter < K
    · -- entry joins the current restart group, no new restart point
      have hr : (add b0 x.1 x.2).restarts = b0.restarts := by
        rw [add_restarts, if_pos (by rw [hint]; exact hc)]
      have hco : (add b0 x.1 x.2).counter = b0.counter + 1 := by
        rw [add_counter, if_pos (by rw [hint]; exact hc)]
      refine ⟨fun h => by simp at h, fun _ => ?_, ?_, ?_, ?_, ?_⟩
      · rw [hr, hco]
        rcases Nat.eq_zero_or_pos l.length with h0 | h1
        · obtain ⟨e1, e2⟩ := ih0 h0
          rw [e1, e2]
          simp only [List.length_append, List.length_cons, List.length_nil]
          omega
        · obtain ⟨e1, e2, e3⟩ := ih1 h1
          have hKL : K * (b0.restarts.length - 1) + b0.counter = l.length := e1
          simp only [List.length_append, List.length_cons, List.length_nil]
          omega
      · rw [hr]; exact ihhead
      · rw [hr]; exact ihchain
      · rw [hr]
        intro r hmem
        have := ihle r hmem
        omega
      · rw [hr]
        intro _ r hmem
        have := ihle r hmem
        omega
    · -- restart group full: new restart point at the current offset
      have hcK : b0.counter = K := by
        rcases Nat.eq_zero_or_pos l.length with h0 | h1
        · obtain ⟨-, e2⟩ := ih0 h0
          omega
        · obtain ⟨-, -, e3⟩ := ih1 h1
          omega
      have hc1 : 1 ≤ b0.counter := by omega
      have hmod : b0.buffer.length % 4294967296 = b0.buffer.length :=
        Nat.mod_eq_of_lt hlen0
      have hr : (add b0 x.1 x.2).restarts =
          b0.restarts ++ [b0.buffer.length] := by
        rw [add_restarts, if_neg (by rw [hint]; exact hc), hmod]
      have hco : (add b0 x.1 x.2).counter = 1 := by
        rw [add_counter, if_neg (by rw [hint]; exact hc)]
      have hlt0 := ihlt hc1
      refine ⟨fun h => by simp at h, fun _ => ?_, ?_, ?_, ?_, ?_⟩
      · rw [hr, hco]
        have h1 : 1 ≤ l.length := by
          by_contra hcontra
          have h0 : l.length = 0 := by omega
          obtain ⟨-, e2⟩ := ih0 h0
          omega
        obtain ⟨e1, -, -⟩ := ih1 h1
        have hLeq : b0.restarts.length - 1 + 1 = b0.restarts.length := by
          omega
        have hmul : K * b0.restarts.length =
            K * (b0.restarts.length - 1) + K := by
          calc K * b0.restarts.length
              = K * (b0.restarts.length - 1 + 1) := by rw [hLeq]
            _ = K * (b0.restarts.length - 1) + K := by ring
        simp only [List.length_append, List.length_cons, List.length_nil,
          Nat.zero_add, Nat.add_sub_cancel]
        omega
      · rw [hr, List.head?_append]
        rw [ihhead]
        rfl
      · rw [hr, List.chain'_append]
        refine ⟨ihchain, by simp, ?_⟩
        intro a ha y hy
        simp only [List.head?_cons, Option.mem_def, Option.some.injEq] at hy
        subst hy
        exact hlt0 a (List.mem_of_getLast?_eq_some ha)
      · rw [hr]
        intro r hmem
        rcases List.mem_append.mp hmem with h | h
        · have := ihle r h
          omega
        · simp only [List.mem_cons, List.not_mem_nil, or_false] at h
          omega
      · rw [hr]
        intro _ r hmem
        rcases List.mem_append.mp hmem with h | h
        · have := hlt0 r h
          omega
        · simp only [List.mem_cons, List.not_mem_nil, or_false] at h
          omega

theorem restarts_len_ceil (K L c n : Nat) (hK : 1 ≤ K) (hL : 1 ≤ L)
    (h : K * (L - 1) + c = n) (hc1 : 1 ≤ c) (hc2 : c ≤ K) :
    L = (n + K - 1) / K := by
  have hLeq : L - 1 + 1 = L := by omega
  have hmul : K * L = K * (L - 1) + K := by
    calc K * L = K * (L - 1 + 1) := by rw [hLeq]
      _ = K * (L - 1) + K := by ring
  have hsum : n + K - 1 = K * L + (c - 1) := by omega
  have hzero : (c - 1) / K = 0 := Nat.div_eq_of_lt (by omega)
  rw [hsum, Nat.mul_add_div (by omega), hzero]
  omega

/-- C2 amended: on a fresh (or freshly Reset, which equals fresh) builder,
after N Add calls the recorded restart offsets number ceil(N / K) when
N is at least 1 (and 1 for an empty run, the initial offset), are strictly
increasing, and start at 0.  The buffer bound reflects the uint32 type of
the stored offsets. -/
theorem c2_restart_count (K : Nat) (kvs : List (List Nat × List Nat))
    (hK : 1 ≤ K)
    (hlen : (addAll (blockBuilderInit K) kvs).buffer.length < 4294967296) :
    (∀ b0 : BlockBuilder, reset b0 = blockBuilderInit b0.restart_interval) ∧
    (1 ≤ kvs.length →
      (addAll (blockBuilderInit K) kvs).restarts.length =
        (kvs.length + K - 1) / K) ∧
    (kvs.length = 0 →
      (addAll (blockBuilderInit K) kvs).restarts.length = 1) ∧
    List.Chain' (· < ·) (addAll (blockBuilderInit K) kvs).restarts ∧
    (addAll (blockBuilderInit K) kvs).restarts.head? = some 0 := by
  obtain ⟨ih0, ih1, ihhead, ihchain, -, -⟩ := restarts_inv K hK kvs hlen
  refine ⟨fun b0 => rfl, ?_, fun h => (ih0 h).1, ihchain, ihhead⟩
  intro h1
  obtain ⟨e1, e2, e3⟩ := ih1 h1
  have hL1 : 1 ≤ (addAll (blockBuilderInit K) kvs).restarts.length := by
    cases hres : (addAll (blockBuilderInit K) kvs).restarts with
    | nil => rw [hres] at ihhead; simp at ihhead
    | cons a l => simp [hres]
  exact restarts_len_ceil K _ _ _ hK hL1 e1 e2 e3

/-- C2 counterexample: for an empty run (N = 0) the builder still records
one restart offset (the initial 0), while ceil(0 / K) = 0. -/
theorem c2_restart_count_counterexample :
    (addAll (blockBuilderInit 1)
      ([] : List (List Nat × List Nat))).restarts.length ≠
    (([] : List (List Nat × List Nat)).length + 1 - 1) / 1 := by decide

/-- Witness for C2 at three entries with interval 2: ceil(3/2) = 2
restart offsets. -/
theorem c2_restart_count_witness :
    (addAll (blockBuilderInit 2)
      [([1], [2]), ([2], [3]), ([3], [4])]).restarts.length =
    ([([1], [2]), ([2], [3]), ([3], [4])].length + 2 - 1) / 2 :=
  (c2_restart_count 2 [([1], [2]), ([2], [3]), ([3], [4])]
    (by decide) (by decide)).2.1 (by decide)

/-! ## Shared-prefix correctness (claim C3) -/

/-- s is the length of the longest common byte prefix of k1 and k2. -/
def IsLcpLen (k1 k2 : List Nat) (s : Nat) : Prop :=
  s ≤ k1.length ∧ s ≤ k2.length ∧ k1.take s = k2.take s ∧
  ∀ n, n ≤ k1.length → n ≤ k2.length → k1.take n = k2.take n → n ≤ s

theorem sharedLen_isLcpLen (k1 k2 : List Nat) :
    IsLcpLen k1 k2 (sharedLen k1 k2) :=
  ⟨sharedLen_le_left k1 k2, sharedLen_le_right k1 k2,
   sharedLen_take_eq k1 k2,
   fun n h1 h2 h3 => sharedLen_maximal k1 k2 n h1 h2 h3⟩

/-- C3: after adding k1, adding k2 within the same restart group encodes
shared_bytes equal to the true longest-common-prefix length of k1 and k2;
when the group is full the encoded shared_bytes is 0; and the encoded
entry starts with the varint32 of exactly that shared value. -/
theorem c3_shared_bytes (b : BlockBuilder) (k1 v1 k2 v2 : List Nat) :
    ((add b k1 v1).counter < (add b k1 v1).restart_interval →
      IsLcpLen k1 k2 (entryShared (add b k1 v1) k2)) ∧
    (¬ (add b k1 v1).counter < (add b k1 v1).restart_interval →
      entryShared (add b k1 v1) k2 = 0) ∧
    (add (add b k1 v1) k2 v2).buffer =
      (add b k1 v1).buffer ++
        (putVarint32 (entryShared (add b k1 v1) k2) ++
         putVarint32 (k2.length - entryShared (add b k1 v1) k2) ++
         putVarint32 v2.length ++
         k2.drop (entryShared (add b k1 v1) k2) ++ v2) := by
  refine ⟨?_, ?_, rfl⟩
  · intro h
    unfold entryShared
    rw [if_pos h, add_last_key]
    exact sharedLen_isLcpLen k1 k2
  · intro h
    unfold entryShared
    rw [if_neg h]

/-- Witness for C3: car then cart inside one restart group share a
3-byte prefix. -/
theorem c3_shared_bytes_witness :
    IsLcpLen [99, 97, 114] [99, 97, 114, 116]
      (entryShared (add (blockBuilderInit 3) [99, 97, 114] [118])
        [99, 97, 114, 116]) :=
  (c3_shared_bytes (blockBuilderInit 3) [99, 97, 114] [118]
    [99, 97, 114, 116] [119]).1 (by decide)

/-- C4: CurrentSizeEstimate never decreases across an Add, and the
buffer Finish returns has exactly the estimated length (the estimate
queried before Finish, with no Add in between, is the final size). -/
theorem c4_size_estimate (b : BlockBuilder) (k v : List Nat) :
    currentSizeEstimate b ≤ currentSizeEstimate (add b k v) ∧
    (finish b).buffer.length = currentSizeEstimate b := by
  constructor
  · unfold currentSizeEstimate
    have h1 : b.buffer.length ≤ (add b k v).buffer.length :=
      le_of_lt (add_buffer_length_lt b k v)
    have h2 : b.restarts.length ≤ (add b k v).restarts.length := by
      rw [add_restarts]
      split <;> simp
    omega
  · show (b.buffer ++ finishTrailer b).length = _
    unfold finishTrailer currentSizeEstimate
    simp only [List.length_append, flatten_map_putFixed32_length,
      putFixed32_length]
    omega

/-- C5: Finish sets the finished flag but never checks it, so a second
Finish appends the identical restart trailer once more. -/
theorem c5_double_finish (b : BlockBuilder) :
    (finish b).finished = true ∧
    (finish (finish b)).buffer = (finish b).buffer ++ finishTrailer b := by
  refine ⟨rfl, ?_⟩
  show (finish b).buffer ++ finishTrailer (finish b) =
    (finish b).buffer ++ finishTrailer b
  rfl

/-- C6: with at least one prior entry, a key not strictly greater than
the previous key under the configured comparator makes Add fail its
assertion (no entry is encoded); under the strict-ordering precondition
the checked Add always succeeds. -/
theorem c6_ordering_check (cmp : List Nat → List Nat → Int)
    (b : BlockBuilder) (key value : List Nat) (hprev : b.buffer ≠ []) :
    (¬ 0 < cmp key b.last_key → addChecked cmp b key value = none) ∧
    (0 < cmp key b.last_key → b.finished = false →
      b.counter ≤ b.restart_interval →
      addChecked cmp b key value = some (add b key value)) := by
  constructor
  · intro hcmp
    unfold addChecked
    rw [if_neg]
    rintro ⟨-, -, h3⟩
    rcases h3 with h | h
    · exact hprev h
    · exact hcmp h
  · intro h1 h2 h3
    unfold addChecked
    rw [if_pos ⟨h2, h3, Or.inr h1⟩]

/-- Witness for C6: after adding key 1, the smaller key 0 is rejected
by the bytewise comparator check. -/
theorem c6_ordering_check_witness :
    addChecked bytewiseCompare (add (blockBuilderInit 16) [1] [9])
      [0] [9] = none :=
  (c6_ordering_check bytewiseCompare (add (blockBuilderInit 16) [1] [9])
    [0] [9] (by decide)).1 (by decide)

/-! ## Arena (util/arena.cc)

Addresses are naturals.  The system allocator behind new char[] is
modelled by a frontier address heapEnd: each new block is placed at the
next pointer-aligned address at or past the frontier, which captures
that new char[] returns fresh, non-overlapping, at-least-pointer-aligned
memory.  The pointer size is 8 (64-bit platform). -/

structure Arena where
  blocksMemory : Nat
  allocPtr : Nat
  allocRemaining : Nat
  blocks : List (Nat × Nat)
  heapEnd : Nat
deriving DecidableEq

/-- Arena::Arena: no blocks, null current pointer, nothing remaining. -/
def arenaInit : Arena := ⟨0, 0, 0, [], 8⟩

/-- Round an address up to the next multiple of the pointer size. -/
def alignUp8 (x : Nat) : Nat :=
  if x % 8 = 0 then x else x + (8 - x % 8)

/-- Arena::AllocateNewBlock: obtains a fresh block of block_bytes bytes
from the system allocator, accounts it and records it in blocks_. -/
def allocateNewBlock (a : Arena) (blockBytes : Nat) : Nat × Arena :=
  let base := alignUp8 a.heapEnd
  (base, { a with blocksMemory := a.blocksMemory + blockBytes,
                  blocks := a.blocks ++ [(base, blockBytes)],
                  heapEnd := base + blockBytes })

/-- Arena::AllocateFallback: a request over kBlockSize/4 = 1024 bytes
gets a dedicated block of exactly its size; otherwise a fresh standard
4096-byte block becomes the active block and the request is carved from
its start, abandoning the remainder of the old active block. -/
def allocateFallback (a : Arena) (bytes : Nat) : Nat × Arena :=
  if 4096 / 4 < bytes then
    allocateNewBlock a bytes
  else
    let p := allocateNewBlock a 4096
    (p.1, { p.2 with allocPtr := p.1 + bytes,
                     allocRemaining := 4096 - bytes })

/-- Modelled from the spec: Arena::Allocate (the inline fast path lives
in util/arena.h, which is not under src/): if the request fits in the
remaining bytes of the active block it is carved at the cursor,
otherwise AllocateFallback runs. -/
def allocate (a : Arena) (bytes : Nat) : Nat × Arena :=
  if bytes ≤ a.allocRemaining then
    (a.allocPtr, { a with allocPtr := a.allocPtr + bytes,
                          allocRemaining := a.allocRemaining - bytes })
  else allocateFallback a bytes

/-- Arena::AllocateAligned: pad the cursor to the next multiple of the
pointer size; if padding plus request fits, carve from the cursor,
otherwise fall back (fallback blocks are pointer-aligned by
construction). -/
def allocateAligned (a : Arena) (bytes : Nat) : Nat × Arena :=
  let currentMod := a.allocPtr % 8
  let slop := if currentMod = 0 then 0 else 8 - currentMod
  let needed := bytes + slop
  if needed ≤ a.allocRemaining then
    (a.allocPtr + slop, { a with allocPtr := a.allocPtr + needed,
                                 allocRemaining := a.allocRemaining - needed })
  else allocateFallback a bytes

/-- One request against the arena: Allocate or AllocateAligned. -/
inductive ArenaReq where
  | basic (n : Nat)
  | aligned (n : Nat)
deriving DecidableEq

/-- Serve one request, returning the byte range handed out. -/
def arenaStep (a : Arena) : ArenaReq → (Nat × Nat) × Arena
  | .basic n => (((allocate a n).1, n), (allocate a n).2)
  | .aligned n => (((allocateAligned a n).1, n), (allocateAligned a n).2)

/-- Serve a list of requests, collecting every returned byte range. -/
def arenaRun (a : Arena) : List ArenaReq → List (Nat × Nat) × Arena
  | [] => ([], a)
  | r :: rs =>
    let p := arenaStep a r
    let q := arenaRun p.2 rs
    (p.1 :: q.1, q.2)

/-- x lies in the byte range r = (base, size). -/
def inRange (x : Nat) (r : Nat × Nat) : Prop :=
  r.1 ≤ x ∧ x < r.1 + r.2

/-- Two byte ranges share no byte. -/
def rangesDisjoint (r s : Nat × Nat) : Prop :=
  ∀ x, ¬ (inRange x r ∧ inRange x s)

/-- Byte range r lies inside byte range blk. -/
def rangeInside (r blk : Nat × Nat) : Prop :=
  blk.1 ≤ r.1 ∧ r.1 + r.2 ≤ blk.1 + blk.2

/-- The unconsumed part of the active block: [alloc_ptr_,
alloc_ptr_ + alloc_bytes_remaining_). -/
def activeRange (a : Arena) : Nat × Nat := (a.allocPtr, a.allocRemaining)

/-- Well-formedness of an arena state: the active region lies below the
allocator frontier, every owned block lies below the frontier, and a
non-empty active region lies inside some owned block. -/
def ArenaWF (a : Arena) : Prop :=
  a.allocPtr + a.allocRemaining ≤ a.heapEnd ∧
  (∀ blk ∈ a.blocks, blk.1 + blk.2 ≤ a.heapEnd) ∧
  (0 < a.allocRemaining → ∃ blk ∈ a.blocks, rangeInside (activeRange a) blk)

theorem arenaInit_wf : ArenaWF arenaInit := by
  refine ⟨by simp [arenaInit], ?_, ?_⟩
  · intro blk hblk
    simp [arenaInit] at hblk
  · intro h
    simp [arenaInit] at h

theorem le_alignUp8 (x : Nat) : x ≤ alignUp8 x := by
  unfold alignUp8
  split <;> omega

theorem alignUp8_mod (x : Nat) : alignUp8 x % 8 = 0 := by
  unfold alignUp8
  split <;> omega

/-- Everything a single allocation step guarantees with respect to the
prior state: well-formedness is preserved, the frontier only grows,
blocks are never removed, the returned range comes from the old active
region or from fresh memory, a non-trivial returned range is backed by
an owned block, the new active region comes from the old active region
or fresh memory, the returned range is disjoint from the new active
region, and the returned range lies below the new frontier. -/
def stepOK (a : Arena) (ret : Nat × Nat) (a2 : Arena) : Prop :=
  ArenaWF a2 ∧
  a.heapEnd ≤ a2.heapEnd ∧
  (∀ blk ∈ a.blocks, blk ∈ a2.blocks) ∧
  (∀ x, inRange x ret → inRange x (activeRange a) ∨ a.heapEnd ≤ x) ∧
  (0 < ret.2 → ∃ blk ∈ a2.blocks, rangeInside ret blk) ∧
  (∀ x, inRange x (activeRange a2) →
    inRange x (activeRange a) ∨ a.heapEnd ≤ x) ∧
  (∀ x, inRange x ret → ¬ inRange x (activeRange a2)) ∧
  ret.1 + ret.2 ≤ a2.heapEnd

theorem allocateFallback_big (a : Arena) (n : Nat) (h : 4096 / 4 < n) :
    allocateFallback a n = allocateNewBlock a n := by
  unfold allocateFallback
  rw [if_pos h]

theorem allocateFallback_small (a : Arena) (n : Nat) (h : ¬ 4096 / 4 < n) :
    allocateFallback a n =
      (alignUp8 a.heapEnd,
       { blocksMemory := a.blocksMemory + 4096,
         allocPtr := alignUp8 a.heapEnd + n,
         allocRemaining := 4096 - n,
         blocks := a.blocks ++ [(alignUp8 a.heapEnd, 4096)],
         heapEnd := alignUp8 a.heapEnd + 4096 }) := by
  unfold allocateFallback
  rw [if_neg h]
  rfl

theorem allocateFallback_stepOK (a : Arena) (n : Nat) (hwf : ArenaWF a) :
    stepOK a ((allocateFallback a n).1, n) (allocateFallback a n).2 := by
  obtain ⟨hw1, hw2, hw3⟩ := hwf
  have hB : a.heapEnd ≤ alignUp8 a.heapEnd := le_alignUp8 _
  by_cases hbig : 4096 / 4 < n
  · rw [allocateFallback_big a n hbig]
    show stepOK a (alignUp8 a.heapEnd, n) _
    refine ⟨⟨?_, ?_, ?_⟩, ?_, ?_, ?_, ?_, ?_, ?_, ?_⟩
    · show a.allocPtr + a.allocRemaining ≤ alignUp8 a.heapEnd + n
      omega
    · intro blk hblk
      show blk.1 + blk.2 ≤ alignUp8 a.heapEnd + n
      rcases List.mem_append.mp hblk with hm | hm
      · have := hw2 blk hm
        omega
      · simp only [List.mem_cons, List.not_mem_nil, or_false] at hm
        subst hm
        omega
    · intro hrem
      obtain ⟨blk, hmem, hin⟩ := hw3 hrem
      exact ⟨blk, List.mem_append_left _ hmem, hin⟩
    · show a.heapEnd ≤ alignUp8 a.heapEnd + n
      omega
    · intro blk hblk
      exact List.mem_append_left _ hblk
    · intro x hx
      right
      simp only [inRange] at hx
      omega
    · intro _
      refine ⟨(alignUp8 a.heapEnd, n), List.mem_append_right _ ?_, ?_⟩
      · simp
      · simp [rangeInside]
    · intro x hx
      left
      exact hx
    · intro x hx hx2
      have e1 : (allocateNewBlock a n).2.allocPtr = a.allocPtr := rfl
      have e2 : (allocateNewBlock a n).2.allocRemaining = a.allocRemaining := rfl
      simp only [inRange, activeRange, e1, e2] at hx hx2
      omega
    · show alignUp8 a.heapEnd + n ≤ alignUp8 a.heapEnd + n
      omega
  · rw [allocateFallback_small a n hbig]
    have hn : n ≤ 1024 := by omega
    refine ⟨⟨?_, ?_, ?_⟩, ?_, ?_, ?_, ?_, ?_, ?_, ?_⟩
    · show alignUp8 a.heapEnd + n + (4096 - n) ≤ alignUp8 a.heapEnd + 4096
      omega
    · intro blk hblk
      show blk.1 + blk.2 ≤ alignUp8 a.heapEnd + 4096
      rcases List.mem_append.mp hblk with hm | hm
      · have := hw2 blk hm
        omega
      · simp only [List.mem_cons, List.not_mem_nil, or_false] at hm
        subst hm
        omega
    · intro _
      refine ⟨(alignUp8 a.heapEnd, 4096), List.mem_append_right _ ?_, ?_⟩
      · simp
      · simp only [rangeInside, activeRange]
        constructor
        · show alignUp8 a.heapEnd ≤ alignUp8 a.heapEnd + n
          omega
        · show alignUp8 a.heapEnd + n + (4096 - n) ≤ alignUp8 a.heapEnd + 4096
          omega
    · show a.heapEnd ≤ alignUp8 a.heapEnd + 4096
      omega
    · intro blk hblk
      exact List.mem_append_left _ hblk
    · intro x hx
      right
      simp only [inRange] at hx
      omega
    · intro _
      refine ⟨(alignUp8 a.heapEnd, 4096), List.mem_append_right _ ?_, ?_⟩
      · simp
      · simp only [rangeInside]
        omega
    · intro x hx
      right
      simp only [inRange, activeRange] at hx
      omega
    · intro x hx hx2
      simp only [inRange, activeRange] at hx hx2
      omega
    · show alignUp8 a.heapEnd + n ≤ alignUp8 a.heapEnd + 4096
      omega

theorem allocate_stepOK (a : Arena) (n : Nat) (hwf : ArenaWF a) :
    stepOK a ((allocate a n).1, n) (allocate a n).2 := by
  by_cases hfit : n ≤ a.allocRemaining
  · obtain ⟨hw1, hw2, hw3⟩ := hwf
    have hfast : allocate a n =
        (a.allocPtr, { a with allocPtr := a.allocPtr + n,
                              allocRemaining := a.allocRemaining - n }) := by
      unfold allocate
      rw [if_pos hfit]
    rw [hfast]
    refine ⟨⟨?_, ?_, ?_⟩, ?_, ?_, ?_, ?_, ?_, ?_, ?_⟩
    · show a.allocPtr + n + (a.allocRemaining - n) ≤ a.heapEnd
      omega
    · intro blk hblk
      exact hw2 blk hblk
    · intro hrem
      have hrem2 : 0 < a.allocRemaining - n := hrem
      obtain ⟨blk, hmem, hin⟩ := hw3 (by omega)
      refine ⟨blk, hmem, ?_⟩
      simp only [rangeInside, activeRange] at hin ⊢
      omega
    · exact Nat.le.refl
    · intro blk hblk
      exact hblk
    · intro x hx
      left
      simp only [inRange, activeRange] at hx ⊢
      omega
    · intro hn
      have hn2 : (0 : Nat) < n := hn
      obtain ⟨blk, hmem, hin⟩ := hw3 (by omega)
      refine ⟨blk, hmem, ?_⟩
      simp only [rangeInside, activeRange] at hin ⊢
      omega
    · intro x hx
      left
      simp only [inRange, activeRange] at hx ⊢
      omega
    · intro x hx hx2
      simp only [inRange, activeRange] at hx hx2
      omega
    · show a.allocPtr + n ≤ a.heapEnd
      omega
  · have hfall : allocate a n = allocateFallback a n := by
      unfold allocate
      rw [if_neg hfit]
    rw [hfall]
    exact allocateFallback_stepOK a n ⟨hwf.1, hwf.2.1, hwf.2.2⟩

theorem allocateAligned_stepOK (a : Arena) (n : Nat) (hwf : ArenaWF a) :
    stepOK a ((allocateAligned a n).1, n) (allocateAligned a n).2 := by
  by_cases hfit : n + (if a.allocPtr % 8 = 0 then 0
      else 8 - a.allocPtr % 8) ≤ a.allocRemaining
  · obtain ⟨hw1, hw2, hw3⟩ := hwf
    have hfast : allocateAligned a n =
        (a.allocPtr + (if a.allocPtr % 8 = 0 then 0
           else 8 - a.allocPtr % 8),
         { a with
           allocPtr := a.allocPtr + (n + (if a.allocPtr % 8 = 0 then 0
             else 8 - a.allocPtr % 8)),
           allocRemaining := a.allocRemaining -
             (n + (if a.allocPtr % 8 = 0 then 0
               else 8 - a.allocPtr % 8)) }) := by
      simp only [allocateAligned]
      rw [if_pos hfit]
    rw [hfast]
    set S := if a.allocPtr % 8 = 0 then 0 else 8 - a.allocPtr % 8 with hS
    refine ⟨⟨?_, ?_, ?_⟩, ?_, ?_, ?_, ?_, ?_, ?_, ?_⟩
    · show a.allocPtr + (n + S) + (a.allocRemaining - (n + S)) ≤ a.heapEnd
      omega
    · intro blk hblk
      exact hw2 blk hblk
    · intro hrem
      have hrem2 : 0 < a.allocRemaining - (n + S) := hrem
      obtain ⟨blk, hmem, hin⟩ := hw3 (by omega)
      refine ⟨blk, hmem, ?_⟩
      simp only [rangeInside, activeRange] at hin ⊢
      omega
    · exact Nat.le.refl
    · intro blk hblk
      exact hblk
    · intro x hx
      left
      simp only [inRange, activeRange] at hx ⊢
      omega
    · intro hn
      have hn2 : (0 : Nat) < n := hn
      obtain ⟨blk, hmem, hin⟩ := hw3 (by omega)
      refine ⟨blk, hmem, ?_⟩
      simp only [rangeInside, activeRange] at hin ⊢
      omega
    · intro x hx
      left
      simp only [inRange, activeRange] at hx ⊢
      omega
    · intro x hx hx2
      simp only [inRange, activeRange] at hx hx2
      omega
    · show a.allocPtr + S + n ≤ a.heapEnd
      omega
  · have hfall : allocateAligned a n = allocateFallback a n := by
      simp only [allocateAligned]
      rw [if_neg hfit]
    rw [hfall]
    exact allocateFallback_stepOK a n hwf

theorem arenaStep_stepOK (a : Arena) (r : ArenaReq) (hwf : ArenaWF a) :
    stepOK a (arenaStep a r).1 (arenaStep a r).2 := by
  cases r with
  | basic n => exact allocate_stepOK a n hwf
  | aligned n => exact allocateAligned_stepOK a n hwf

theorem arenaRun_wf : ∀ (reqs : List ArenaReq) (a : Arena),
    ArenaWF a → ArenaWF (arenaRun a reqs).2
  | [], _, h => h
  | r :: rs, a, h => by
    have hs := arenaStep_stepOK a r h
    show ArenaWF (arenaRun (arenaStep a r).2 rs).2
    exact arenaRun_wf rs _ hs.1

theorem arenaRun_blocks_mono : ∀ (reqs : List ArenaReq) (a : Arena),
    ArenaWF a → ∀ blk ∈ a.blocks, blk ∈ (arenaRun a reqs).2.blocks
  | [], _, _, _, h => h
  | r :: rs, a, hwf, blk, h => by
    have hs := arenaStep_stepOK a r hwf
    show blk ∈ (arenaRun (arenaStep a r).2 rs).2.blocks
    exact arenaRun_blocks_mono rs _ hs.1 blk (hs.2.2.1 blk h)

/-- A region disjoint from the active block remainder and lying below
the allocator frontier is never touched by any later request. -/
theorem arenaRun_avoids : ∀ (reqs : List ArenaReq) (a : Arena)
    (R : Nat × Nat), ArenaWF a →
    (∀ x, inRange x R → ¬ inRange x (activeRange a)) →
    R.1 + R.2 ≤ a.heapEnd →
    ∀ ret ∈ (arenaRun a reqs).1, rangesDisjoint R ret
  | [], a, R, _, _, _ => by
    intro ret h
    simp [arenaRun] at h
  | r :: rs, a, R, hwf, hact, hhi => by
    intro ret hret
    have hs := arenaStep_stepOK a r hwf
    have hret2 : ret = (arenaStep a r).1 ∨
        ret ∈ (arenaRun (arenaStep a r).2 rs).1 := by
      simpa [arenaRun] using hret
    rcases hret2 with h1 | h1
    · subst h1
      rintro x ⟨hxR, hxret⟩
      rcases hs.2.2.2.1 x hxret with hold | hfresh
      · exact hact x hxR hold
      · simp only [inRange] at hxR
        omega
    · refine arenaRun_avoids rs (arenaStep a r).2 R hs.1 ?_ ?_ ret h1
      · intro x hxR hxact
        rcases hs.2.2.2.2.2.1 x hxact with hold | hfresh
        · exact hact x hxR hold
        · simp only [inRange] at hxR
          have := hs.2.1
          omega
      · have := hs.2.1
        omega

theorem arenaRun_pairwise : ∀ (reqs : List ArenaReq) (a : Arena),
    ArenaWF a →
    List.Pairwise rangesDisjoint (arenaRun a reqs).1 ∧
    (∀ ret ∈ (arenaRun a reqs).1, 0 < ret.2 →
      ∃ blk ∈ (arenaRun a reqs).2.blocks, rangeInside ret blk)
  | [], a, hwf => by
    constructor
    · exact List.Pairwise.nil
    · intro ret h
      simp [arenaRun] at h
  | r :: rs, a, hwf => by
    have hs := arenaStep_stepOK a r hwf
    obtain ⟨ihp, ihc⟩ := arenaRun_pairwise rs (arenaStep a r).2 hs.1
    constructor
    · show List.Pairwise rangesDisjoint
        ((arenaStep a r).1 :: (arenaRun (arenaStep a r).2 rs).1)
      refine List.Pairwise.cons ?_ ihp
      intro ret hret
      exact arenaRun_avoids rs (arenaStep a r).2 (arenaStep a r).1 hs.1
        hs.2.2.2.2.2.2.1 hs.2.2.2.2.2.2.2 ret hret
    · intro ret hret hpos
      have hret2 : ret = (arenaStep a r).1 ∨
          ret ∈ (arenaRun (arenaStep a r).2 rs).1 := by
        simpa [arenaRun] using hret
      rcases hret2 with h1 | h1
      · subst h1
        obtain ⟨blk, hmem, hin⟩ := hs.2.2.2.2.1 hpos
        refine ⟨blk, ?_, hin⟩
        show blk ∈ (arenaRun (arenaStep a r).2 rs).2.blocks
        exact arenaRun_blocks_mono rs _ hs.1 blk hmem
      · exact ihc ret h1 hpos

/-- C7: over any sequence of Allocate / AllocateAligned requests the
returned byte ranges are pairwise disjoint, and every non-empty
returned range stays inside a block the arena still owns at the end
(blocks are only ever appended, never freed or moved before
destruction). -/
theorem c7_disjoint_ranges (reqs : List ArenaReq) :
    List.Pairwise rangesDisjoint (arenaRun arenaInit reqs).1 ∧
    (∀ ret ∈ (arenaRun arenaInit reqs).1, 0 < ret.2 →
      ∃ blk ∈ (arenaRun arenaInit reqs).2.blocks, rangeInside ret blk) :=
  arenaRun_pairwise reqs arenaInit arenaInit_wf

/-- Witness for C7 on a mixed request sequence crossing block
boundaries. -/
theorem c7_disjoint_ranges_witness :
    List.Pairwise rangesDisjoint
      (arenaRun arenaInit [ArenaReq.basic 16, ArenaReq.aligned 5,
        ArenaReq.basic 2000, ArenaReq.aligned 0]).1 :=
  (c7_disjoint_ranges [ArenaReq.basic 16, ArenaReq.aligned 5,
    ArenaReq.basic 2000, ArenaReq.aligned 0]).1

/-- C9: after any sequence of requests, AllocateAligned returns an
address that is a multiple of the pointer size 8: the padded fast path
by the slop arithmetic, the fallback path because block bases are
pointer-aligned; so the alignment assertion never fires. -/
theorem c9_aligned_mod8 (reqs : List ArenaReq) (n : Nat) :
    (allocateAligned (arenaRun arenaInit reqs).2 n).1 % 8 = 0 := by
  generalize (arenaRun arenaInit reqs).2 = a
  by_cases hfit : n + (if a.allocPtr % 8 = 0 then 0
      else 8 - a.allocPtr % 8) ≤ a.allocRemaining
  · have hfast : (allocateAligned a n).1 =
        a.allocPtr + (if a.allocPtr % 8 = 0 then 0
          else 8 - a.allocPtr % 8) := by
      simp only [allocateAligned]
      rw [if_pos hfit]
    rw [hfast]
    by_cases hmod : a.allocPtr % 8 = 0 <;> simp [hmod] <;> omega
  · have hfall : allocateAligned a n = allocateFallback a n := by
      simp only [allocateAligned]
      rw [if_neg hfit]
    have hbase : (allocateFallback a n).1 = alignUp8 a.heapEnd := by
      unfold allocateFallback
      split
      · rfl
      · rfl
    rw [hfall, hbase]
    exact alignUp8_mod _

/-- C8 counterexample: a 2000-byte request (over a quarter block) that
fits in the active block's 3996 remaining bytes is served inline from
the shared block: no dedicated block is created and the cursor moves. -/
theorem c8_large_alloc_counterexample :
    4096 / 4 < 2000 ∧
    (allocate (allocate arenaInit 100).2 2000).2.blocks =
      (allocate arenaInit 100).2.blocks ∧
    (allocate (allocate arenaInit 100).2 2000).2.allocPtr ≠
      (allocate arenaInit 100).2.allocPtr := by decide

/-- C8 amended: a request over a quarter of the block size that does
not fit in the active block's remaining bytes is served by a dedicated
fresh block of exactly the requested size, leaving the active block's
cursor and remaining count untouched; AllocateAligned behaves
identically there. -/
theorem c8_large_alloc_dedicated (a : Arena) (n : Nat)
    (hbig : 4096 / 4 < n) (hnofit : a.allocRemaining < n) :
    (allocate a n).1 = alignUp8 a.heapEnd ∧
    (allocate a n).2.blocks = a.blocks ++ [((allocate a n).1, n)] ∧
    (allocate a n).2.allocPtr = a.allocPtr ∧
    (allocate a n).2.allocRemaining = a.allocRemaining ∧
    (allocate a n).2.blocksMemory = a.blocksMemory + n ∧
    allocateAligned a n = allocate a n := by
  have hfall : allocate a n = allocateFallback a n := by
    unfold allocate
    rw [if_neg (by omega)]
  have hded : allocateFallback a n = allocateNewBlock a n :=
    allocateFallback_big a n hbig
  rw [hfall, hded]
  refine ⟨rfl, rfl, rfl, rfl, rfl, ?_⟩
  have hnofit2 : ¬ (n + (if a.allocPtr % 8 = 0 then 0
      else 8 - a.allocPtr % 8) ≤ a.allocRemaining) := by
    by_cases hmod : a.allocPtr % 8 = 0 <;> simp [hmod] <;> omega
  show allocateAligned a n = allocateNewBlock a n
  have h1 : allocateAligned a n = allocateFallback a n := by
    simp only [allocateAligned]
    rw [if_neg hnofit2]
  rw [h1, hded]

/-- Witness for C8 amended: a 2000-byte request on a fresh arena gets a
dedicated 2000-byte block. -/
theorem c8_large_alloc_dedicated_witness :
    (allocate arenaInit 2000).2.blocks =
      arenaInit.blocks ++ [((allocate arenaInit 2000).1, 2000)] :=
  (c8_large_alloc_dedicated arenaInit 2000 (by decide) (by decide)).2.1

/-- C10: a small request (at most a quarter block) that does not fit is
served from the start of a fresh standard 4096-byte block, which
becomes the active block; the remainder of the old active block is
abandoned: no later request ever returns a byte of it. -/
theorem c10_small_fallback (pre : List ArenaReq) (n : Nat)
    (reqs : List ArenaReq) (hsmall : n ≤ 4096 / 4)
    (hnofit : (arenaRun arenaInit pre).2.allocRemaining < n) :
    (allocate (arenaRun arenaInit pre).2 n).1 =
      alignUp8 (arenaRun arenaInit pre).2.heapEnd ∧
    (allocate (arenaRun arenaInit pre).2 n).2.blocks =
      (arenaRun arenaInit pre).2.blocks ++
        [(alignUp8 (arenaRun arenaInit pre).2.heapEnd, 4096)] ∧
    (allocate (arenaRun arenaInit pre).2 n).2.allocPtr =
      alignUp8 (arenaRun arenaInit pre).2.heapEnd + n ∧
    (allocate (arenaRun arenaInit pre).2 n).2.allocRemaining =
      4096 - n ∧
    (∀ ret ∈ (arenaRun (allocate (arenaRun arenaInit pre).2 n).2 reqs).1,
      rangesDisjoint (activeRange (arenaRun arenaInit pre).2) ret) := by
  set a := (arenaRun arenaInit pre).2 with ha
  have hwf : ArenaWF a := arenaRun_wf pre arenaInit arenaInit_wf
  have hfall : allocate a n = allocateFallback a n := by
    unfold allocate
    rw [if_neg (by omega)]
  have hsm := allocateFallback_small a n (by omega)
  have hstep := allocateFallback_stepOK a n hwf
  rw [hfall, hsm]
  rw [hsm] at hstep
  refine ⟨rfl, rfl, rfl, rfl, ?_⟩
  intro ret hret
  have hB : a.heapEnd ≤ alignUp8 a.heapEnd := le_alignUp8 _
  refine arenaRun_avoids reqs _ (activeRange a) hstep.1 ?_ ?_ ret hret
  · intro x hx hx2
    simp only [inRange, activeRange] at hx hx2
    have := hwf.1
    omega
  · show a.allocPtr + a.allocRemaining ≤ alignUp8 a.heapEnd + 4096
    have := hwf.1
    omega

/-- Witness for C10: a 50-byte request on a fresh arena (0 bytes
remaining) opens a standard block and leaves 4046 bytes. -/
theorem c10_small_fallback_witness :
    (allocate (arenaRun arenaInit []).2 50).2.allocRemaining = 4096 - 50 :=
  (c10_small_fallback [] 50 [ArenaReq.basic 8]
    (by decide) (by decide)).2.2.2.1

end LevelDB
